import Mathlib

/-!
Shallow embedding of the catflake snowflake generator (src/index.js).

The repository bundles two revisions of the same module in one file; they
agree everywhere except in the normalization of processId/workerId at
construction time (the older revision reduces modulo 2 ^ bits - 1 with no
NaN guard, the newer one reduces modulo 2 ^ bits and coerces NaN to 0).
Both normalizations are embedded below.

Modelling conventions:
- big-integer values and JS numbers holding integers are both modelled as Int.
- JS remainder a % b (and big-integer mod) keeps the sign of the dividend,
  so it is Int.tmod.
- big-integer shiftLeft n multiplies by 2 ^ n; shiftRight n is an arithmetic
  shift, i.e. floor division by 2 ^ n (Int.fdiv).
- big-integer and is two-complement bitwise and, i.e. Int.land.
- A possibly non-numeric (NaN) configuration value is modelled as Option Int
  with none standing for NaN.
- Wall-clock reads (Date.now()) are passed in as explicit Int parameters.
- The stringify flag only changes the rendering of the result (decimal
  string versus big-integer object); the numeric value is what is modelled.
-/

namespace Catflake

/-- big-integer shiftLeft: multiply by a power of two. -/
def bShiftLeft (x : Int) (n : Nat) : Int := x * 2 ^ n

/-- big-integer shiftRight: arithmetic right shift, floor division by 2 ^ n. -/
def bShiftRight (x : Int) (n : Nat) : Int := Int.fdiv x (2 ^ n)

/-- big-integer and: two-complement bitwise conjunction. -/
def bAnd (x y : Int) : Int := Int.land x y

/-- big-integer mod and JS remainder: truncated remainder, sign of the dividend. -/
def bMod (x y : Int) : Int := Int.tmod x y

/-- Source helper getBits: the max value of a given number of bits, 2 ^ bits - 1. -/
def getBits (bits : Nat) : Int := 2 ^ bits - 1

/-- The options record passed to the constructor, with the source defaults.
none for processId or workerId models a non-numeric (NaN) value. -/
structure OptionsIn where
  epoch : Int := 1420070400000
  incrementBits : Nat := 12
  processBits : Nat := 5
  workerBits : Nat := 5
  processId : Option Int := some 0
  workerId : Option Int := some 0
  async : Bool := false
  stringify : Bool := true
deriving DecidableEq

/-- The frozen instance produced by the constructor: the options object with
normalized ids written back, plus the derived fields the constructor stores
(maxIncrement and the pre-shifted ids), plus the freeze flags set by
Object.freeze(this.options) and Object.freeze(this). -/
structure Config where
  epoch : Int
  incrementBits : Nat
  processBits : Nat
  workerBits : Nat
  processId : Int
  workerId : Int
  async : Bool
  stringify : Bool
  maxIncrement : Int
  shiftedWorkerId : Int
  shiftedProcessId : Int
  optionsFrozen : Bool
  frozen : Bool
deriving DecidableEq

/-- Normalization of an id at construction time, newer revision:
value % (2 ** bits), then isNaN check coercing NaN to 0.
A NaN input stays NaN through the remainder and is then stored as 0. -/
def normalizeId (supplied : Option Int) (bits : Nat) : Int :=
  match supplied with
  | none => 0
  | some x => bMod x (2 ^ bits)

/-- Normalization of an id, older revision in the bundled file:
value % getBits(bits), i.e. modulo 2 ^ bits - 1, with no isNaN guard.
A NaN input, or a modulus of 0 (bits = 0), leaves NaN in place. -/
def normalizeIdOld (supplied : Option Int) (bits : Nat) : Option Int :=
  match supplied with
  | none => none
  | some x => if getBits bits = 0 then none else some (bMod x (getBits bits))

/-- The constructor. Merges defaults, validates that the three bit widths sum
to 22 (throwing otherwise, before any normalization), normalizes the ids,
stores maxIncrement = 2 ** incrementBits and the pre-shifted ids, and
freezes this.options and this. -/
def construct (o : OptionsIn) : Except String Config :=
  if o.incrementBits + o.processBits + o.workerBits ≠ 22 then
    Except.error "incrementBits, processBits, and workerBits must add up to 22."
  else
    let pid := normalizeId o.processId o.processBits
    let wid := normalizeId o.workerId o.workerBits
    Except.ok
      { epoch := o.epoch
        incrementBits := o.incrementBits
        processBits := o.processBits
        workerBits := o.workerBits
        processId := pid
        workerId := wid
        async := o.async
        stringify := o.stringify
        maxIncrement := 2 ^ o.incrementBits
        shiftedWorkerId := bShiftLeft wid (o.incrementBits + o.processBits)
        shiftedProcessId := bShiftLeft pid o.incrementBits
        optionsFrozen := true
        frozen := true }

/-- The generation-related part of the mutable state: the stored increment
(a big integer) and the stored last timestamp (a JS number). The same
this.mutable object also carries the lock fields, modelled separately
as LockState. -/
structure GenState where
  increment : Int
  lastTimestamp : Int
deriving DecidableEq

/-- The state seeded by the constructor: increment = BigInt.zero.subtract(1),
lastTimestamp = Date.now() at construction time. -/
def initGenState (now : Int) : GenState :=
  { increment := -1, lastTimestamp := now }

/-- The increment getter: advances the stored increment to
(stored + 1).mod(maxIncrement) and returns the new value. -/
def incrementGet (c : Config) (m : GenState) : Int × GenState :=
  let v := bMod (m.increment + 1) c.maxIncrement
  (v, { increment := v, lastTimestamp := m.lastTimestamp })

/-- The numeric value packed by _generate(date, increment):
BigInt(date).minus(epoch).shiftLeft(22).add(this.workerId).add(this.processId)
.add(increment). -/
def flakeValue (c : Config) (date : Int) (inc : Int) : Int :=
  bShiftLeft (date - c.epoch) 22 + c.shiftedWorkerId + c.shiftedProcessId + inc

/-- Sequential generate(): _generate() with no arguments reads Date.now()
and draws the increment from the mutating getter. -/
def generateSync (c : Config) (now : Int) (m : GenState) : Int × GenState :=
  let r := incrementGet c m
  (flakeValue c now r.1, r.2)

/-- The body of _generateAsync between lock and unlock, split into the
timestamp-and-increment bookkeeping. now is Date.now() read on entry;
later is Date.now() re-read after the 2 ms sleep (only consulted on the
rollover branch). Returns the timestamp and increment that are passed to
_generate, together with the updated state. In the source the increment is
passed as a big-integer object, which is truthy even when zero, so the
increment getter is not consulted on this path. -/
def asyncCore (c : Config) (m : GenState) (now later : Int) : Int × Int × GenState :=
  if m.lastTimestamp ≠ now then
    (now, 0, { increment := 0, lastTimestamp := now })
  else
    let inc := m.increment + 1
    if c.maxIncrement ≤ inc then
      (later, 0, { increment := 0, lastTimestamp := later })
    else
      (now, inc, { increment := inc, lastTimestamp := m.lastTimestamp })

/-- Concurrent _generateAsync, critical-section body: compute the timestamp
and increment via the bookkeeping above, then pack with _generate. -/
def generateAsync (c : Config) (m : GenState) (now later : Int) : Int × GenState :=
  let r := asyncCore c m now later
  (flakeValue c r.1 r.2.1, r.2.2)

/-- A deconstructed snowflake. -/
structure Deconstructed where
  timestamp : Int
  workerId : Int
  processId : Int
  increment : Int
deriving DecidableEq

/-- deconstruct(snowflake): normalize the input to a big integer and mask
out the four fields. -/
def deconstruct (c : Config) (flake : Int) : Deconstructed :=
  let timestamp := bShiftRight flake 22 + c.epoch
  let wBitShift := c.incrementBits + c.processBits
  let workerId :=
    bShiftRight (bAnd flake (bShiftLeft (getBits c.workerBits) wBitShift)) wBitShift
  let processId :=
    bShiftRight (bAnd flake (bShiftLeft (getBits c.processBits) c.incrementBits)) c.incrementBits
  let increment := bAnd flake (getBits c.incrementBits)
  { timestamp := timestamp
    workerId := workerId
    processId := processId
    increment := increment }

/-- The lock-related part of the mutable state: the FIFO queue of pending
waiters (promise resolvers, modelled as tokens) and the locked flag. -/
structure LockState where
  locks : List Nat
  locked : Bool
deriving DecidableEq

/-- The lock state seeded by the constructor. -/
def initLockState : LockState :=
  { locks := [], locked := false }

/-- The _lock step for a caller w: if the section is held the caller is
appended to the queue and suspended (first component false); otherwise the
caller takes the section immediately (first component true). -/
def lockAcquire (s : LockState) (w : Nat) : Bool × LockState :=
  if s.locked then
    (false, { locks := s.locks ++ [w], locked := s.locked })
  else
    (true, { locks := s.locks, locked := true })

/-- The _unlock step: wake the earliest-queued waiter when the queue is
non-empty (returned as some w, the locked flag untouched), otherwise mark
the section free. -/
def lockRelease (s : LockState) : Option Nat × LockState :=
  match s.locks with
  | [] => (none, { locks := [], locked := false })
  | h :: t => (some h, { locks := t, locked := s.locked })

/-- Modelled from ECMAScript semantics of Object.freeze: a property write
(adding or modifying a field) on a frozen object is silently ignored. An
attempted rewrite of the frozen options object is modelled as an arbitrary
update function that is only applied when the object is not frozen. -/
def writeOptions (c : Config) (f : Config → Config) : Config :=
  if c.optionsFrozen then c else f c

/-- Modelled from ECMAScript semantics of Object.freeze, as writeOptions but
for a property write on the instance itself. -/
def writeInstance (c : Config) (f : Config → Config) : Config :=
  if c.frozen then c else f c

/-- The generator states reachable from construction through any sequence of
sequential or concurrent generate() calls, at arbitrary wall-clock reads. -/
inductive Reachable (c : Config) : GenState → Prop
  | init (t0 : Int) : Reachable c (initGenState t0)
  | syncStep (m : GenState) : Reachable c m → Reachable c (incrementGet c m).2
  | asyncStep (m : GenState) (now later : Int) :
      Reachable c m → Reachable c (asyncCore c m now later).2.2

/-- Well-formedness facts the constructor guarantees about any instance it
returns. -/
structure WellFormed (c : Config) : Prop where
  bitsSum : c.incrementBits + c.processBits + c.workerBits = 22
  maxInc : c.maxIncrement = 2 ^ c.incrementBits
  shiftedW : c.shiftedWorkerId = c.workerId * 2 ^ (c.incrementBits + c.processBits)
  shiftedP : c.shiftedProcessId = c.processId * 2 ^ c.incrementBits
  widLt : c.workerId < 2 ^ c.workerBits
  widGt : -(2 ^ c.workerBits) < c.workerId
  pidLt : c.processId < 2 ^ c.processBits
  pidGt : -(2 ^ c.processBits) < c.processId

/-- The instance built by construct with all-default options (the
configuration of the deconstruction example in the test suite). -/
def stdCfg : Config :=
  { epoch := 1420070400000
    incrementBits := 12
    processBits := 5
    workerBits := 5
    processId := 0
    workerId := 0
    async := false
    stringify := true
    maxIncrement := 4096
    shiftedWorkerId := 0
    shiftedProcessId := 0
    optionsFrozen := true
    frozen := true }

/-- Options supplying a negative workerId, otherwise default. -/
def oNeg : OptionsIn := { workerId := some (-1) }

/-- The instance built by construct from oNeg: the JS remainder keeps the
sign of the dividend, so the stored workerId is -1. -/
def cexCfg : Config :=
  { epoch := 1420070400000
    incrementBits := 12
    processBits := 5
    workerBits := 5
    processId := 0
    workerId := -1
    async := false
    stringify := true
    maxIncrement := 4096
    shiftedWorkerId := -131072
    shiftedProcessId := 0
    optionsFrozen := true
    frozen := true }

/-! Helper lemmas about the embedded big-integer operations. -/

theorem land_low_bits (a M n : Nat) (hM : M < 2 ^ n) :
    a &&& M = a % 2 ^ n &&& M := by
  apply Nat.eq_of_testBit_eq
  intro i
  simp only [Nat.testBit_and, Nat.testBit_mod_two_pow]
  by_cases h : i < n
  · simp [h]
  · have hMi : M.testBit i = false :=
      Nat.testBit_lt_two_pow (lt_of_lt_of_le hM (Nat.pow_le_pow_right (by norm_num) (le_of_not_lt h)))
    simp [h, hMi]

theorem ldiff_complement (k M low n : Nat) (hM : M < 2 ^ n) (hlow : low < 2 ^ n)
    (hk : k % 2 ^ n = 2 ^ n - 1 - low) :
    Nat.ldiff M k = low &&& M := by
  apply Nat.eq_of_testBit_eq
  intro i
  rw [Nat.testBit_ldiff, Nat.testBit_and]
  by_cases h : i < n
  · have hki : k.testBit i = (k % 2 ^ n).testBit i := by
      rw [Nat.testBit_mod_two_pow]
      simp [h]
    have hsub : 2 ^ n - 1 - low = 2 ^ n - (low + 1) := by omega
    rw [hki, hk, hsub, Nat.testBit_two_pow_sub_succ hlow]
    simp [h, Bool.and_comm]
  · have hMi : M.testBit i = false :=
      Nat.testBit_lt_two_pow (lt_of_lt_of_le hM (Nat.pow_le_pow_right (by norm_num) (le_of_not_lt h)))
    simp [hMi]

theorem bAnd_pack (d : Int) (low M n : Nat) (hlow : low < 2 ^ n) (hM : M < 2 ^ n) :
    Catflake.bAnd (d * 2 ^ n + low) M = (low &&& M : Nat) := by
  have hn : (0 : Int) < 2 ^ n := by positivity
  rcases hx : d * 2 ^ n + (low : Int) with a | k
  · have hx' : d * 2 ^ n + (low : Int) = (a : Int) := by exact_mod_cast hx
    have ha : (a : Int) % 2 ^ n = low := by
      rw [← hx', add_comm, Int.add_mul_emod_self,
        Int.emod_eq_of_lt (by positivity) (by exact_mod_cast hlow)]
    have haN : a % 2 ^ n = low := by exact_mod_cast ha
    show Int.land (Int.ofNat a) (Int.ofNat M) = ((low &&& M : Nat) : Int)
    rw [show Int.land (Int.ofNat a) (Int.ofNat M) = ((a &&& M : Nat) : Int) from rfl]
    rw [land_low_bits a M n hM, haN]
  · rw [Int.negSucc_eq] at hx
    have hlowI : (low : Int) < 2 ^ n := by exact_mod_cast hlow
    have hk : (k : Int) = (-d - 1) * 2 ^ n + ((2 ^ n - 1 - low : Nat) : Int) := by
      push_cast [Nat.cast_sub (by omega : low ≤ 2 ^ n - 1), Nat.cast_sub (Nat.one_le_two_pow)]
      linarith [hx]
    have hI : (k : Int) % 2 ^ n = ((2 ^ n - 1 - low : Nat) : Int) := by
      rw [hk, add_comm, Int.add_mul_emod_self]
      refine Int.emod_eq_of_lt (by positivity) ?_
      push_cast [Nat.cast_sub (by omega : low ≤ 2 ^ n - 1), Nat.cast_sub (Nat.one_le_two_pow)]
      omega
    have hkm : k % 2 ^ n = 2 ^ n - 1 - low := by exact_mod_cast hI
    show Int.land (Int.negSucc k) (Int.ofNat M) = ((low &&& M : Nat) : Int)
    rw [show Int.land (Int.negSucc k) (Int.ofNat M) = ((Nat.ldiff M k : Nat) : Int) from rfl]
    rw [ldiff_complement k M low n hM hlow hkm]

theorem and_mask_shift (x k s : Nat) :
    x &&& (2 ^ k - 1) * 2 ^ s = x / 2 ^ s % 2 ^ k * 2 ^ s := by
  apply Nat.eq_of_testBit_eq
  intro i
  rw [← Nat.shiftLeft_eq (2 ^ k - 1) s, ← Nat.shiftLeft_eq (x / 2 ^ s % 2 ^ k) s,
    ← Nat.shiftRight_eq_div_pow x s]
  simp only [Nat.testBit_and, Nat.testBit_shiftLeft, Nat.testBit_shiftRight,
    Nat.testBit_mod_two_pow, Nat.testBit_two_pow_sub_one]
  by_cases hs : s ≤ i
  · have : s + (i - s) = i := by omega
    simp [hs, this]
    by_cases hk : i - s < k <;> simp [hk]
  · simp [hs]

theorem fdiv_pack (d b : Int) (n : Nat) (hb0 : 0 ≤ b) (hb : b < 2 ^ n) :
    (d * 2 ^ n + b).fdiv (2 ^ n) = d := by
  rw [Int.fdiv_eq_ediv _ (by positivity), add_comm,
    Int.add_mul_ediv_right _ _ (by positivity : (0 : Int) < 2 ^ n).ne',
    Int.ediv_eq_zero_of_lt hb0 hb, zero_add]

theorem emod_pack (d b : Int) (n : Nat) (hb0 : 0 ≤ b) (hb : b < 2 ^ n) :
    (d * 2 ^ n + b) % (2 ^ n) = b := by
  rw [add_comm, Int.add_mul_emod_self, Int.emod_eq_of_lt hb0 hb]

theorem bAnd_mask_extract (d : Int) (low n k s : Nat) (hlow : low < 2 ^ n) (hks : k + s ≤ n) :
    bShiftRight (bAnd (d * 2 ^ n + (low : Int)) (bShiftLeft (getBits k) s)) s
      = ((low / 2 ^ s % 2 ^ k : Nat) : Int) := by
  have hM : (2 ^ k - 1) * 2 ^ s < 2 ^ n := by
    have h1 : (2 ^ k - 1) * 2 ^ s < 2 ^ k * 2 ^ s := by
      have hk1 := Nat.two_pow_pos k
      have hs1 := Nat.two_pow_pos s
      exact Nat.mul_lt_mul_of_lt_of_le (by omega) le_rfl hs1
    have h2 : 2 ^ k * 2 ^ s = 2 ^ (k + s) := (pow_add 2 k s).symm
    have h3 : (2 : Nat) ^ (k + s) ≤ 2 ^ n := Nat.pow_le_pow_right (by norm_num) hks
    omega
  have hmask : bShiftLeft (getBits k) s = (((2 ^ k - 1) * 2 ^ s : Nat) : Int) := by
    unfold bShiftLeft getBits
    push_cast [Nat.cast_sub (Nat.one_le_two_pow)]
    ring
  rw [hmask, bAnd_pack d low ((2 ^ k - 1) * 2 ^ s) n hlow hM, and_mask_shift]
  unfold bShiftRight
  rw [Int.fdiv_eq_ediv _ (by positivity)]
  rw [show ((2 : Int) ^ s) = ((2 ^ s : Nat) : Int) by push_cast; ring]
  rw [← Int.ofNat_ediv, Nat.mul_div_cancel _ (Nat.two_pow_pos s)]

theorem deconstruct_pack (c : Config)
    (h22 : c.incrementBits + c.processBits + c.workerBits = 22)
    (d w p i : Int)
    (hw0 : 0 ≤ w) (hw : w < 2 ^ c.workerBits)
    (hp0 : 0 ≤ p) (hp : p < 2 ^ c.processBits)
    (hi0 : 0 ≤ i) (hi : i < 2 ^ c.incrementBits) :
    deconstruct c
        (d * 2 ^ 22 + w * 2 ^ (c.incrementBits + c.processBits) + p * 2 ^ c.incrementBits + i) =
      { timestamp := d + c.epoch, workerId := w, processId := p, increment := i } := by
  obtain ⟨wn, rfl⟩ : ∃ wn : Nat, (wn : Int) = w := ⟨w.toNat, Int.toNat_of_nonneg hw0⟩
  obtain ⟨pn, rfl⟩ : ∃ pn : Nat, (pn : Int) = p := ⟨p.toNat, Int.toNat_of_nonneg hp0⟩
  obtain ⟨ni, rfl⟩ : ∃ ni : Nat, (ni : Int) = i := ⟨i.toNat, Int.toNat_of_nonneg hi0⟩
  have hwn : wn < 2 ^ c.workerBits := by exact_mod_cast hw
  have hpn : pn < 2 ^ c.processBits := by exact_mod_cast hp
  have hni : ni < 2 ^ c.incrementBits := by exact_mod_cast hi
  set iB := c.incrementBits with hiB
  set pB := c.processBits with hpB
  set wB := c.workerBits with hwB
  have hP : ∀ b : Nat, 1 ≤ 2 ^ b := fun b => Nat.one_le_two_pow
  set low : Nat := wn * 2 ^ (iB + pB) + pn * 2 ^ iB + ni with hlowDef
  have hps : (2 : Nat) ^ iB * 2 ^ pB = 2 ^ (iB + pB) := (pow_add 2 iB pB).symm
  have hps22 : (2 : Nat) ^ (iB + pB) * 2 ^ wB = 2 ^ 22 := by
    rw [← pow_add, h22]
  have hrlow : pn * 2 ^ iB + ni < 2 ^ (iB + pB) := by
    calc pn * 2 ^ iB + ni < pn * 2 ^ iB + 2 ^ iB := by omega
      _ = (pn + 1) * 2 ^ iB := by ring
      _ ≤ 2 ^ pB * 2 ^ iB := Nat.mul_le_mul_right _ (Nat.succ_le_of_lt hpn)
      _ = 2 ^ (iB + pB) := by rw [mul_comm]; exact hps
  have hlow22 : low < 2 ^ 22 := by
    calc low = wn * 2 ^ (iB + pB) + (pn * 2 ^ iB + ni) := by rw [hlowDef]; ring
      _ < wn * 2 ^ (iB + pB) + 2 ^ (iB + pB) := by omega
      _ = (wn + 1) * 2 ^ (iB + pB) := by ring
      _ ≤ 2 ^ wB * 2 ^ (iB + pB) := Nat.mul_le_mul_right _ (Nat.succ_le_of_lt hwn)
      _ = 2 ^ 22 := by rw [mul_comm]; exact hps22
  have hfl : d * 2 ^ 22 + (wn : Int) * 2 ^ (iB + pB) + (pn : Int) * 2 ^ iB + (ni : Int)
      = d * 2 ^ 22 + (low : Int) := by
    rw [hlowDef]; push_cast; ring
  have hdivW : low / 2 ^ (iB + pB) = wn := by
    have h1 : low = 2 ^ (iB + pB) * wn + (pn * 2 ^ iB + ni) := by rw [hlowDef]; ring
    rw [h1, Nat.mul_add_div (Nat.two_pow_pos _), Nat.div_eq_of_lt hrlow, Nat.add_zero]
  have hdivP : low / 2 ^ iB = 2 ^ pB * wn + pn := by
    have h1 : low = 2 ^ iB * (2 ^ pB * wn + pn) + ni := by
      rw [hlowDef, Nat.mul_add, ← Nat.mul_assoc, hps]; ring
    rw [h1, Nat.mul_add_div (Nat.two_pow_pos _), Nat.div_eq_of_lt hni, Nat.add_zero]
  have hmodI : low % 2 ^ iB = ni := by
    have h1 : low = 2 ^ iB * (2 ^ pB * wn + pn) + ni := by
      rw [hlowDef, Nat.mul_add, ← Nat.mul_assoc, hps]; ring
    rw [h1, Nat.mul_add_mod, Nat.mod_eq_of_lt hni]
  rw [hfl]
  simp only [deconstruct, Deconstructed.mk.injEq]
  refine ⟨?_, ?_, ?_, ?_⟩
  · unfold bShiftRight
    rw [fdiv_pack d (low : Int) 22 (by positivity) (by exact_mod_cast hlow22)]
  · rw [bAnd_mask_extract d low 22 wB (iB + pB) hlow22 (by omega)]
    rw [hdivW, Nat.mod_eq_of_lt hwn]
  · rw [bAnd_mask_extract d low 22 pB iB hlow22 (by omega)]
    rw [hdivP, Nat.mul_add_mod, Nat.mod_eq_of_lt hpn]
  · have hgb : getBits iB = ((2 ^ iB - 1 : Nat) : Int) := by
      unfold getBits
      push_cast [Nat.cast_sub (hP iB)]
      ring
    have hMi : (2 : Nat) ^ iB - 1 < 2 ^ 22 := by
      have h1 : (2 : Nat) ^ iB ≤ 2 ^ 22 := Nat.pow_le_pow_right (by norm_num) (by omega)
      have h2 := Nat.two_pow_pos iB
      omega
    rw [hgb, bAnd_pack d low (2 ^ iB - 1) 22 hlow22 hMi,
      Nat.and_pow_two_sub_one_eq_mod, hmodI]

theorem tmod_gt_neg (a : Int) {b : Int} (h : 0 < b) : -b < Int.tmod a b := by
  rcases a with m | m
  · have h1 : (0 : Int) ≤ Int.tmod (Int.ofNat m) b :=
      Int.tmod_nonneg b (by simp [Int.ofNat_eq_natCast])
    omega
  · rcases b with n | n
    · rw [show Int.tmod (Int.negSucc m) (Int.ofNat n) = -Int.ofNat (Nat.succ m % n) from rfl]
      simp only [Int.ofNat_eq_natCast] at h ⊢
      have hn : 0 < n := by exact_mod_cast h
      have h2 := Nat.mod_lt (Nat.succ m) hn
      omega
    · rw [Int.negSucc_eq] at h
      omega

theorem normalizeId_bounds (s : Option Int) (bits : Nat) :
    -(2 ^ bits) < normalizeId s bits ∧ normalizeId s bits < 2 ^ bits := by
  have hb : (0 : Int) < 2 ^ bits := by positivity
  cases s with
  | none =>
    simp only [normalizeId]
    omega
  | some x =>
    simp only [normalizeId, bMod]
    exact ⟨tmod_gt_neg x hb, Int.tmod_lt_of_pos x hb⟩

theorem construct_ok_wellFormed {o : OptionsIn} {c : Config}
    (h : construct o = Except.ok c) : WellFormed c := by
  by_cases hs : o.incrementBits + o.processBits + o.workerBits = 22
  · rw [construct, if_neg (by omega)] at h
    have hc := Except.ok.inj h
    subst hc
    exact
      { bitsSum := hs
        maxInc := rfl
        shiftedW := rfl
        shiftedP := rfl
        widLt := (normalizeId_bounds o.workerId o.workerBits).2
        widGt := (normalizeId_bounds o.workerId o.workerBits).1
        pidLt := (normalizeId_bounds o.processId o.processBits).2
        pidGt := (normalizeId_bounds o.processId o.processBits).1 }
  · rw [construct, if_pos hs] at h
    cases h

theorem reachable_invariant {c : Config} (hwf : WellFormed c) {m : GenState}
    (h : Reachable c m) : -1 ≤ m.increment ∧ m.increment < c.maxIncrement := by
  have hmax : 0 < c.maxIncrement := by rw [hwf.maxInc]; positivity
  induction h with
  | init t0 =>
    simp only [initGenState]
    omega
  | syncStep m' hm ih =>
    simp only [incrementGet, bMod]
    have h1 : 0 ≤ Int.tmod (m'.increment + 1) c.maxIncrement :=
      Int.tmod_nonneg c.maxIncrement (by omega)
    have h2 := Int.tmod_lt_of_pos (m'.increment + 1) hmax
    exact ⟨by omega, h2⟩
  | asyncStep m' now later hm ih =>
    simp only [asyncCore]
    by_cases h1 : m'.lastTimestamp = now
    · simp only [h1, ne_eq, not_true_eq_false, if_false]
      by_cases h2 : c.maxIncrement ≤ m'.increment + 1
      · simp only [h2, if_true]
        omega
      · simp only [h2, if_false]
        omega
    · simp only [ne_eq, h1, not_false_eq_true, if_true]
      omega

theorem syncInc_bounds (c : Config) (hwf : WellFormed c) (m : GenState)
    (hm : -1 ≤ m.increment) :
    0 ≤ (incrementGet c m).1 ∧ (incrementGet c m).1 < 2 ^ c.incrementBits := by
  have hmax := hwf.maxInc
  have hpos : (0 : Int) < 2 ^ c.incrementBits := by positivity
  simp only [incrementGet, bMod]
  refine ⟨Int.tmod_nonneg c.maxIncrement (by omega), ?_⟩
  have := Int.tmod_lt_of_pos (m.increment + 1) (show 0 < c.maxIncrement by omega)
  omega

theorem asyncInc_bounds (c : Config) (hwf : WellFormed c) (m : GenState)
    (hm : -1 ≤ m.increment) (now later : Int) :
    0 ≤ (asyncCore c m now later).2.1 ∧
      (asyncCore c m now later).2.1 < 2 ^ c.incrementBits := by
  have hmax := hwf.maxInc
  have hpos : (0 : Int) < 2 ^ c.incrementBits := by positivity
  by_cases h1 : m.lastTimestamp = now
  · by_cases h2 : c.maxIncrement ≤ m.increment + 1
    · have hE : asyncCore c m now later
          = (later, 0, { increment := 0, lastTimestamp := later }) := by
        simp [asyncCore, h1, h2]
      rw [hE]
      exact ⟨le_rfl, hpos⟩
    · have hE : asyncCore c m now later
          = (now, m.increment + 1,
              { increment := m.increment + 1, lastTimestamp := now }) := by
        simp [asyncCore, h1, not_le.mp h2]
      rw [hE]
      simp only []
      omega
  · have hE : asyncCore c m now later
        = (now, 0, { increment := 0, lastTimestamp := now }) := by
      simp [asyncCore, h1]
    rw [hE]
    exact ⟨le_rfl, hpos⟩

theorem tmod_emod (x m : Int) : Int.tmod x m % m = x % m := by
  rw [Int.tmod_def]
  have h : x - m * x.tdiv m = x + (-(x.tdiv m)) * m := by ring
  rw [h, Int.add_mul_emod_self]

theorem construct_ok_fields {o : OptionsIn} {c : Config}
    (h : construct o = Except.ok c) :
    c.processId = normalizeId o.processId o.processBits ∧
    c.workerId = normalizeId o.workerId o.workerBits ∧
    c.processBits = o.processBits ∧ c.workerBits = o.workerBits := by
  by_cases hs : o.incrementBits + o.processBits + o.workerBits = 22
  · rw [construct, if_neg (by omega)] at h
    cases Except.ok.inj h
    exact ⟨rfl, rfl, rfl, rfl⟩
  · rw [construct, if_pos hs] at h
    cases h

theorem pack_fields (iB pB wB : Nat) (h22 : iB + pB + wB = 22) (d w p i : Int)
    (hw0 : 0 ≤ w) (hw : w < 2 ^ wB) (hp0 : 0 ≤ p) (hp : p < 2 ^ pB)
    (hi0 : 0 ≤ i) (hi : i < 2 ^ iB) :
    (d * 2 ^ 22 + w * 2 ^ (iB + pB) + p * 2 ^ iB + i).fdiv (2 ^ 22) = d ∧
    (d * 2 ^ 22 + w * 2 ^ (iB + pB) + p * 2 ^ iB + i).fdiv (2 ^ (iB + pB)) % 2 ^ wB = w ∧
    (d * 2 ^ 22 + w * 2 ^ (iB + pB) + p * 2 ^ iB + i).fdiv (2 ^ iB) % 2 ^ pB = p ∧
    (d * 2 ^ 22 + w * 2 ^ (iB + pB) + p * 2 ^ iB + i) % 2 ^ iB = i := by
  have hsplitS : (2 : Int) ^ (iB + pB) = 2 ^ iB * 2 ^ pB := by rw [← pow_add]
  have hsplit22 : (2 : Int) ^ 22 = 2 ^ (iB + pB) * 2 ^ wB := by
    rw [← pow_add]; congr 1; omega
  have hsplit22i : (2 : Int) ^ 22 = 2 ^ iB * 2 ^ (pB + wB) := by
    rw [← pow_add]; congr 1; omega
  have hsplitPW : (2 : Int) ^ (pB + wB) = 2 ^ pB * 2 ^ wB := by rw [← pow_add]
  have hr0 : (0 : Int) ≤ p * 2 ^ iB + i :=
    add_nonneg (mul_nonneg hp0 (by positivity)) hi0
  have hrlt : p * 2 ^ iB + i < 2 ^ (iB + pB) := by
    rw [hsplitS]
    calc p * 2 ^ iB + i ≤ (2 ^ pB - 1) * 2 ^ iB + (2 ^ iB - 1) := by gcongr <;> omega
      _ = 2 ^ iB * 2 ^ pB - 1 := by ring
      _ < 2 ^ iB * 2 ^ pB := by omega
  have hlow0 : (0 : Int) ≤ w * 2 ^ (iB + pB) + p * 2 ^ iB + i := by
    have := mul_nonneg hw0 (show (0 : Int) ≤ 2 ^ (iB + pB) by positivity)
    omega
  have hlowlt : w * 2 ^ (iB + pB) + p * 2 ^ iB + i < 2 ^ 22 := by
    rw [hsplit22, hsplitS]
    calc w * (2 ^ iB * 2 ^ pB) + p * 2 ^ iB + i
        ≤ (2 ^ wB - 1) * (2 ^ iB * 2 ^ pB) + (2 ^ pB - 1) * 2 ^ iB + (2 ^ iB - 1) := by
          gcongr <;> omega
      _ = 2 ^ iB * 2 ^ pB * 2 ^ wB - 1 := by ring
      _ < 2 ^ iB * 2 ^ pB * 2 ^ wB := by omega
  have hlowlt' : w * 2 ^ (iB + pB) + p * 2 ^ iB + i < 2 ^ 22 := hlowlt
  refine ⟨?_, ?_, ?_, ?_⟩
  · rw [show d * 2 ^ 22 + w * 2 ^ (iB + pB) + p * 2 ^ iB + i
        = d * 2 ^ 22 + (w * 2 ^ (iB + pB) + p * 2 ^ iB + i) by ring]
    exact fdiv_pack d _ 22 hlow0 hlowlt'
  · rw [show d * 2 ^ 22 + w * 2 ^ (iB + pB) + p * 2 ^ iB + i
        = (d * 2 ^ wB + w) * 2 ^ (iB + pB) + (p * 2 ^ iB + i) by rw [hsplit22]; ring]
    rw [fdiv_pack _ _ _ hr0 hrlt]
    exact emod_pack d w wB hw0 hw
  · rw [show d * 2 ^ 22 + w * 2 ^ (iB + pB) + p * 2 ^ iB + i
        = (d * 2 ^ (pB + wB) + w * 2 ^ pB + p) * 2 ^ iB + i by
          rw [hsplit22i, hsplitS]; ring]
    rw [fdiv_pack _ _ _ hi0 hi]
    rw [show d * 2 ^ (pB + wB) + w * 2 ^ pB + p = (d * 2 ^ wB + w) * 2 ^ pB + p by
      rw [hsplitPW]; ring]
    exact emod_pack _ p pB hp0 hp
  · rw [show d * 2 ^ 22 + w * 2 ^ (iB + pB) + p * 2 ^ iB + i
        = (d * 2 ^ (pB + wB) + w * 2 ^ pB + p) * 2 ^ iB + i by
          rw [hsplit22i, hsplitS]; ring]
    exact emod_pack _ i iB hi0 hi

/-- C3: construction raises the fatal bit-width error exactly when
incrementBits + processBits + workerBits differs from 22, and returns a
usable instance exactly when the sum is 22. The validation happens in the
constructor before any state is touched; generate() and deconstruct() are
total functions in the embedding, so no such error can arise there. -/
theorem construct_error_iff_bad_widths (o : OptionsIn) :
    (o.incrementBits + o.processBits + o.workerBits ≠ 22 →
      construct o =
        Except.error "incrementBits, processBits, and workerBits must add up to 22.") ∧
    (o.incrementBits + o.processBits + o.workerBits = 22 →
      ∃ c, construct o = Except.ok c) ∧
    (∀ c, construct o = Except.ok c →
      o.incrementBits + o.processBits + o.workerBits = 22) := by
  refine ⟨fun h => by rw [construct, if_pos h],
    fun h => ⟨_, by rw [construct, if_neg (by omega)]⟩,
    fun c hc => ?_⟩
  by_contra hs
  rw [construct, if_pos hs] at hc
  cases hc

theorem construct_error_iff_bad_widths_witness :
    (construct { processBits := 4 } =
      Except.error "incrementBits, processBits, and workerBits must add up to 22.") ∧
    ∃ c, construct {} = Except.ok c := by
  refine ⟨(construct_error_iff_bad_widths { processBits := 4 }).1 (by decide),
    (construct_error_iff_bad_widths {}).2.1 (by decide)⟩

/-- C4: with the default configuration (incrementBits 12, processBits 5,
workerBits 5, epoch 1420070400000), deconstruct applied to the value of the
decimal string 397282797158964394 returns timestamp 1514790000000,
workerId 4, processId 9 and increment 3242. -/
theorem deconstruct_example :
    construct {} = Except.ok stdCfg ∧
    deconstruct stdCfg 397282797158964394 =
      { timestamp := 1514790000000, workerId := 4, processId := 9, increment := 3242 } := by
  exact ⟨rfl, by decide⟩

theorem flakeValue_as_pack (c : Config) (hwf : WellFormed c) (t i : Int) :
    flakeValue c t i
      = (t - c.epoch) * 2 ^ 22 + c.workerId * 2 ^ (c.incrementBits + c.processBits)
        + c.processId * 2 ^ c.incrementBits + i := by
  rw [flakeValue, bShiftLeft, hwf.shiftedW, hwf.shiftedP]

theorem flakeValue_split_inc (c : Config) (hwf : WellFormed c) (t i : Int) :
    flakeValue c t i
      = ((t - c.epoch) * 2 ^ (c.processBits + c.workerBits)
          + c.workerId * 2 ^ c.processBits + c.processId) * 2 ^ c.incrementBits + i := by
  rw [flakeValue_as_pack c hwf t i]
  rw [show ((2 : Int) ^ 22) = 2 ^ c.incrementBits * 2 ^ (c.processBits + c.workerBits) by
    rw [← pow_add]; congr 1; have := hwf.bitsSum; omega]
  rw [show ((2 : Int) ^ (c.incrementBits + c.processBits))
      = 2 ^ c.incrementBits * 2 ^ c.processBits by rw [← pow_add]]
  ring

theorem deconstruct_increment_field (c : Config) (D i : Int)
    (hi0 : 0 ≤ i) (hi : i < 2 ^ c.incrementBits) :
    (deconstruct c (D * 2 ^ c.incrementBits + i)).increment = i := by
  obtain ⟨ni, rfl⟩ : ∃ ni : Nat, (ni : Int) = i := ⟨i.toNat, Int.toNat_of_nonneg hi0⟩
  have hni : ni < 2 ^ c.incrementBits := by exact_mod_cast hi
  have hgb : getBits c.incrementBits = ((2 ^ c.incrementBits - 1 : Nat) : Int) := by
    unfold getBits
    push_cast [Nat.cast_sub (Nat.one_le_two_pow)]
    ring
  show bAnd (D * 2 ^ c.incrementBits + (ni : Int)) (getBits c.incrementBits) = (ni : Int)
  rw [hgb, bAnd_pack D ni (2 ^ c.incrementBits - 1) c.incrementBits hni
      (by have := Nat.two_pow_pos c.incrementBits; omega),
    Nat.and_pow_two_sub_one_eq_mod, Nat.mod_eq_of_lt hni]

/-- C7: in sequential mode every generate() call advances the stored
increment to (previous stored increment + 1) mod 2 ^ incrementBits without
consulting the timestamp, and from the maximal stored increment the next
call packs a snowflake whose increment field is 0. Stated for constructed
instances and for stored increments the generator can hold (at least -1,
the seeded value). -/
theorem sync_increment_wraps (o : OptionsIn) (c : Config) (hc : construct o = Except.ok c)
    (m : GenState) (hm : -1 ≤ m.increment) (now : Int) :
    (generateSync c now m).2.increment = (m.increment + 1) % 2 ^ c.incrementBits ∧
    (m.increment = 2 ^ c.incrementBits - 1 →
      (deconstruct c (generateSync c now m).1).increment = 0) := by
  have hwf := construct_ok_wellFormed hc
  constructor
  · show (incrementGet c m).2.increment = _
    simp only [incrementGet, bMod]
    rw [hwf.maxInc, Int.tmod_eq_emod (by omega) (by positivity)]
  · intro hmx
    have hv : (incrementGet c m).1 = 0 := by
      simp only [incrementGet, bMod]
      rw [hwf.maxInc, hmx, Int.sub_add_cancel, Int.tmod_self]
    show (deconstruct c (flakeValue c now (incrementGet c m).1)).increment = 0
    rw [hv, flakeValue_split_inc c hwf now 0]
    exact deconstruct_increment_field c _ 0 le_rfl (by positivity)

theorem sync_increment_wraps_witness :
    (generateSync stdCfg 1420070400005 { increment := 4095, lastTimestamp := 0 }).2.increment
      = ((4095 : Int) + 1) % 2 ^ stdCfg.incrementBits ∧
    (deconstruct stdCfg
        (generateSync stdCfg 1420070400005 { increment := 4095, lastTimestamp := 0 }).1).increment
      = 0 := by
  exact ⟨(sync_increment_wraps {} stdCfg rfl
      { increment := 4095, lastTimestamp := 0 } (by decide) 1420070400005).1,
    (sync_increment_wraps {} stdCfg rfl
      { increment := 4095, lastTimestamp := 0 } (by decide) 1420070400005).2 (by decide)⟩

/-- C8: the critical-section state machine. Acquiring a free section takes it
(queue untouched); acquiring a held section appends the caller to the FIFO
queue and suspends it; releasing with an empty queue marks the section free;
releasing with a non-empty queue wakes exactly the earliest-queued waiter
and keeps the section held (ownership transfer to the head of the queue). -/
theorem lock_state_machine (s : LockState) (w : Nat) :
    (s.locked = false →
      lockAcquire s w = (true, { locks := s.locks, locked := true })) ∧
    (s.locked = true →
      lockAcquire s w = (false, { locks := s.locks ++ [w], locked := true })) ∧
    (s.locks = [] → lockRelease s = (none, { locks := [], locked := false })) ∧
    (∀ hd tl, s.locked = true → s.locks = hd :: tl →
      lockRelease s = (some hd, { locks := tl, locked := true })) := by
  refine ⟨fun h => ?_, fun h => ?_, fun h => ?_, fun hd tl hl hq => ?_⟩
  · simp [lockAcquire, h]
  · simp [lockAcquire, h]
  · simp [lockRelease, h]
  · simp [lockRelease, hq, hl]

theorem lock_state_machine_witness :
    lockAcquire { locks := [], locked := false } 7
      = (true, { locks := [], locked := true }) ∧
    lockAcquire { locks := [4], locked := true } 7
      = (false, { locks := [4, 7], locked := true }) ∧
    lockRelease { locks := [], locked := true }
      = (none, { locks := [], locked := false }) ∧
    lockRelease { locks := [5, 6], locked := true }
      = (some 5, { locks := [6], locked := true }) := by
  exact ⟨(lock_state_machine { locks := [], locked := false } 7).1 rfl,
    (lock_state_machine { locks := [4], locked := true } 7).2.1 rfl,
    (lock_state_machine { locks := [], locked := true } 0).2.2.1 rfl,
    (lock_state_machine { locks := [5, 6], locked := true } 0).2.2.2 5 [6] rfl rfl⟩

/-- C9: after construction the instance and its options are frozen, so
attempted property writes (modelled per ECMAScript freeze semantics as
updates that only land on unfrozen objects) have no effect, and every
observable behaviour of generate() and deconstruct() is unchanged by them. -/
theorem frozen_tamper_proof (o : OptionsIn) (c : Config) (hc : construct o = Except.ok c)
    (f g : Config → Config) (x now later : Int) (m : GenState) :
    writeInstance c f = c ∧ writeOptions c g = c ∧
    deconstruct (writeInstance c f) x = deconstruct c x ∧
    generateSync (writeInstance c f) now m = generateSync c now m ∧
    generateAsync (writeOptions c g) m now later = generateAsync c m now later := by
  have hfrozen : c.frozen = true ∧ c.optionsFrozen = true := by
    by_cases hs : o.incrementBits + o.processBits + o.workerBits = 22
    · rw [construct, if_neg (by omega)] at hc
      cases Except.ok.inj hc
      exact ⟨rfl, rfl⟩
    · rw [construct, if_pos hs] at hc
      cases hc
  have h1 : writeInstance c f = c := by rw [writeInstance, if_pos hfrozen.1]
  have h2 : writeOptions c g = c := by rw [writeOptions, if_pos hfrozen.2]
  exact ⟨h1, h2, by rw [h1], by rw [h1], by rw [h2]⟩

theorem frozen_tamper_proof_witness :
    writeInstance stdCfg (fun d => { d with epoch := 0 }) = stdCfg ∧
    writeOptions stdCfg (fun d => { d with workerId := 3 }) = stdCfg ∧
    deconstruct (writeInstance stdCfg (fun d => { d with epoch := 0 })) 397282797158964394
      = deconstruct stdCfg 397282797158964394 ∧
    generateSync (writeInstance stdCfg (fun d => { d with epoch := 0 })) 1420070400005
        (initGenState 0)
      = generateSync stdCfg 1420070400005 (initGenState 0) ∧
    generateAsync (writeOptions stdCfg (fun d => { d with workerId := 3 }))
        (initGenState 0) 1420070400005 1420070400007
      = generateAsync stdCfg (initGenState 0) 1420070400005 1420070400007 := by
  exact frozen_tamper_proof {} stdCfg rfl (fun d => { d with epoch := 0 })
    (fun d => { d with workerId := 3 }) 397282797158964394 1420070400005 1420070400007
    (initGenState 0)

/-- C6: the concurrent-mode critical section. If the wall clock differs from
the stored last timestamp, the timestamp is adopted and the increment resets
to 0; if it is equal, the increment grows by 1, and when the grown value
reaches maxIncrement = 2 ^ incrementBits the call sleeps 2 time units,
re-reads and adopts the clock (which has moved on, hence the freshness
hypothesis now < later) and packs increment 0. Consequently the packed
increment never reaches 2 ^ incrementBits, and a rollover always comes with
a timestamp different from the one previously stored. -/
theorem async_step_spec (o : OptionsIn) (c : Config) (hc : construct o = Except.ok c)
    (m : GenState) (now later : Int) (hadv : now < later) :
    (m.lastTimestamp ≠ now →
      asyncCore c m now later = (now, 0, { increment := 0, lastTimestamp := now })) ∧
    (m.lastTimestamp = now → m.increment + 1 < c.maxIncrement →
      asyncCore c m now later
        = (now, m.increment + 1, { increment := m.increment + 1, lastTimestamp := now })) ∧
    (m.lastTimestamp = now → c.maxIncrement ≤ m.increment + 1 →
      asyncCore c m now later = (later, 0, { increment := 0, lastTimestamp := later }) ∧
      later ≠ m.lastTimestamp) ∧
    (asyncCore c m now later).2.1 < 2 ^ c.incrementBits := by
  have hwf := construct_ok_wellFormed hc
  have hpos : (0 : Int) < 2 ^ c.incrementBits := by positivity
  have hmax := hwf.maxInc
  refine ⟨fun h => ?_, fun h1 h2 => ?_, fun h1 h2 => ?_, ?_⟩
  · simp [asyncCore, h]
  · simp [asyncCore, h1, not_le.mpr h2]
  · refine ⟨by simp [asyncCore, h1, h2], by omega⟩
  · by_cases h1 : m.lastTimestamp = now
    · by_cases h2 : c.maxIncrement ≤ m.increment + 1
      · have hE : asyncCore c m now later
            = (later, 0, { increment := 0, lastTimestamp := later }) := by
          simp [asyncCore, h1, h2]
        rw [hE]
        exact hpos
      · have hE : asyncCore c m now later
            = (now, m.increment + 1,
                { increment := m.increment + 1, lastTimestamp := now }) := by
          simp [asyncCore, h1, not_le.mp h2]
        rw [hE]
        simp only []
        omega
    · have hE : asyncCore c m now later
          = (now, 0, { increment := 0, lastTimestamp := now }) := by
        simp [asyncCore, h1]
      rw [hE]
      exact hpos

theorem async_step_spec_witness :
    asyncCore stdCfg { increment := 5, lastTimestamp := 100 } 100 102
      = (100, 6, { increment := 6, lastTimestamp := 100 }) ∧
    (asyncCore stdCfg { increment := 4095, lastTimestamp := 100 } 100 102
        = (102, 0, { increment := 0, lastTimestamp := 102 }) ∧
      (102 : Int) ≠ 100) ∧
    (asyncCore stdCfg { increment := 5, lastTimestamp := 100 } 100 102).2.1
      < 2 ^ stdCfg.incrementBits := by
  exact ⟨(async_step_spec {} stdCfg rfl { increment := 5, lastTimestamp := 100 } 100 102
      (by decide)).2.1 rfl (by decide),
    (async_step_spec {} stdCfg rfl { increment := 4095, lastTimestamp := 100 } 100 102
      (by decide)).2.2.1 rfl (by decide),
    (async_step_spec {} stdCfg rfl { increment := 5, lastTimestamp := 100 } 100 102
      (by decide)).2.2.2⟩

/-- C10: on every reachable generator state, the increment a generate() call
packs into the snowflake lies in [0, 2 ^ incrementBits), in both the
sequential path (the value produced by the increment getter) and the
concurrent path (the value handed to _generate by _generateAsync); the
stored increment itself is back in range after every call, exceeding the
range only transiently inside the concurrent path before the reset. -/
theorem packed_increment_range (o : OptionsIn) (c : Config) (hc : construct o = Except.ok c)
    (m : GenState) (hm : Reachable c m) (now later : Int) :
    (0 ≤ (incrementGet c m).1 ∧ (incrementGet c m).1 < 2 ^ c.incrementBits) ∧
    (0 ≤ (asyncCore c m now later).2.1 ∧
      (asyncCore c m now later).2.1 < 2 ^ c.incrementBits) ∧
    (-1 ≤ m.increment ∧ m.increment < 2 ^ c.incrementBits) := by
  have hwf := construct_ok_wellFormed hc
  have hinv := reachable_invariant hwf hm
  have hmax := hwf.maxInc
  exact ⟨syncInc_bounds c hwf m hinv.1, asyncInc_bounds c hwf m hinv.1 now later,
    hinv.1, by omega⟩

theorem packed_increment_range_witness :
    (0 ≤ (incrementGet stdCfg (initGenState 0)).1 ∧
      (incrementGet stdCfg (initGenState 0)).1 < 2 ^ stdCfg.incrementBits) ∧
    (0 ≤ (asyncCore stdCfg (initGenState 0) 3 5).2.1 ∧
      (asyncCore stdCfg (initGenState 0) 3 5).2.1 < 2 ^ stdCfg.incrementBits) ∧
    (-1 ≤ (initGenState 0).increment ∧
      (initGenState 0).increment < 2 ^ stdCfg.incrementBits) := by
  exact packed_increment_range {} stdCfg rfl (initGenState 0) (Reachable.init 0) 3 5

/-- C2: for every timestamp, constructed configuration and in-range
increment, _generate packs exactly
(t - epoch) * 2 ^ 22 + workerId * 2 ^ (incrementBits + processBits)
+ processId * 2 ^ incrementBits + i, and the four fields occupy disjoint
bit ranges: shifting by 22 recovers the timestamp delta exactly (the low
width is exactly 22 bits), and each subfield is recovered by its shift and
reduction. The bit-range reading presumes the stored ids are non-negative,
which holds whenever the supplied ids are. -/
theorem pack_layout (o : OptionsIn) (c : Config) (hc : construct o = Except.ok c)
    (t i : Int) (hw0 : 0 ≤ c.workerId) (hp0 : 0 ≤ c.processId)
    (hi0 : 0 ≤ i) (hi : i < 2 ^ c.incrementBits) :
    flakeValue c t i
      = (t - c.epoch) * 2 ^ 22 + c.workerId * 2 ^ (c.incrementBits + c.processBits)
        + c.processId * 2 ^ c.incrementBits + i ∧
    bShiftRight (flakeValue c t i) 22 = t - c.epoch ∧
    bShiftRight (flakeValue c t i) (c.incrementBits + c.processBits) % 2 ^ c.workerBits
      = c.workerId ∧
    bShiftRight (flakeValue c t i) c.incrementBits % 2 ^ c.processBits = c.processId ∧
    flakeValue c t i % 2 ^ c.incrementBits = i := by
  have hwf := construct_ok_wellFormed hc
  have hpf := pack_fields c.incrementBits c.processBits c.workerBits hwf.bitsSum
    (t - c.epoch) c.workerId c.processId i hw0 hwf.widLt hp0 hwf.pidLt hi0 hi
  have hfv := flakeValue_as_pack c hwf t i
  refine ⟨hfv, ?_, ?_, ?_, ?_⟩
  · simp only [bShiftRight]
    rw [hfv]
    exact hpf.1
  · simp only [bShiftRight]
    rw [hfv]
    exact hpf.2.1
  · simp only [bShiftRight]
    rw [hfv]
    exact hpf.2.2.1
  · rw [hfv]
    exact hpf.2.2.2

theorem pack_layout_witness :
    flakeValue stdCfg 1420070400010 7
      = ((1420070400010 : Int) - stdCfg.epoch) * 2 ^ 22
        + stdCfg.workerId * 2 ^ (stdCfg.incrementBits + stdCfg.processBits)
        + stdCfg.processId * 2 ^ stdCfg.incrementBits + 7 ∧
    bShiftRight (flakeValue stdCfg 1420070400010 7) 22 = 1420070400010 - stdCfg.epoch ∧
    bShiftRight (flakeValue stdCfg 1420070400010 7)
        (stdCfg.incrementBits + stdCfg.processBits) % 2 ^ stdCfg.workerBits
      = stdCfg.workerId ∧
    bShiftRight (flakeValue stdCfg 1420070400010 7) stdCfg.incrementBits
        % 2 ^ stdCfg.processBits
      = stdCfg.processId ∧
    flakeValue stdCfg 1420070400010 7 % 2 ^ stdCfg.incrementBits = 7 := by
  exact pack_layout {} stdCfg rfl 1420070400010 7 (by decide) (by decide)
    (by decide) (by decide)

/-- C1 counterexample: the configuration with default bit widths and supplied
workerId -1 is valid (the widths sum to 22), but deconstructing the
snowflake generated by the first sequential call returns workerId 31, not
the stored workerId -1. -/
theorem roundtrip_ids_cex :
    construct oNeg = Except.ok cexCfg ∧
    cexCfg.workerId = -1 ∧
    (deconstruct cexCfg
        (generateSync cexCfg 1420070400001 (initGenState 1420070400000)).1).workerId = 31 ∧
    (31 : Int) ≠ -1 := by
  exact ⟨rfl, rfl, by decide, by decide⟩

/-- C1 amended: for every valid configuration whose stored (normalized)
workerId and processId are non-negative, which holds in particular whenever
the supplied ids are non-negative, deconstructing a snowflake returned by
generate() with the same instance yields exactly those stored ids, in both
the sequential and the concurrent mode, at any wall-clock readings and any
generator state the instance can hold. -/
theorem roundtrip_ids (o : OptionsIn) (c : Config) (hc : construct o = Except.ok c)
    (hw0 : 0 ≤ c.workerId) (hp0 : 0 ≤ c.processId)
    (m : GenState) (hm : -1 ≤ m.increment) (now later : Int) :
    ((deconstruct c (generateSync c now m).1).workerId = c.workerId ∧
      (deconstruct c (generateSync c now m).1).processId = c.processId) ∧
    ((deconstruct c (generateAsync c m now later).1).workerId = c.workerId ∧
      (deconstruct c (generateAsync c m now later).1).processId = c.processId) := by
  have hwf := construct_ok_wellFormed hc
  have key : ∀ t inc : Int, 0 ≤ inc → inc < 2 ^ c.incrementBits →
      (deconstruct c (flakeValue c t inc)).workerId = c.workerId ∧
      (deconstruct c (flakeValue c t inc)).processId = c.processId := by
    intro t inc h0 h1
    rw [flakeValue_as_pack c hwf t inc,
      deconstruct_pack c hwf.bitsSum (t - c.epoch) c.workerId c.processId inc
        hw0 hwf.widLt hp0 hwf.pidLt h0 h1]
    exact ⟨rfl, rfl⟩
  have hs := syncInc_bounds c hwf m hm
  have ha := asyncInc_bounds c hwf m hm now later
  exact ⟨key now (incrementGet c m).1 hs.1 hs.2,
    key (asyncCore c m now later).1 (asyncCore c m now later).2.1 ha.1 ha.2⟩

theorem roundtrip_ids_witness :
    ((deconstruct stdCfg
        (generateSync stdCfg 1420070400001 (initGenState 1420070400000)).1).workerId
      = stdCfg.workerId ∧
      (deconstruct stdCfg
        (generateSync stdCfg 1420070400001 (initGenState 1420070400000)).1).processId
      = stdCfg.processId) ∧
    ((deconstruct stdCfg
        (generateAsync stdCfg (initGenState 1420070400000) 1420070400001 1420070400003).1).workerId
      = stdCfg.workerId ∧
      (deconstruct stdCfg
        (generateAsync stdCfg (initGenState 1420070400000) 1420070400001 1420070400003).1).processId
      = stdCfg.processId) := by
  exact roundtrip_ids {} stdCfg rfl (by decide) (by decide)
    (initGenState 1420070400000) (by decide) 1420070400001 1420070400003

/-- C5 counterexample: with workerBits 5 the supplied workerId -1 is stored
as -1 (the JS remainder keeps the sign of the dividend), which differs from
the residue 31 of reduction modulo 2 ^ 5 and lies outside [0, 2 ^ 5). -/
theorem normalize_ids_cex :
    construct oNeg = Except.ok cexCfg ∧
    cexCfg.workerId = -1 ∧
    (-1 : Int) % 2 ^ (5 : Nat) = 31 ∧
    ¬ (0 ≤ cexCfg.workerId) := by
  exact ⟨rfl, rfl, by decide, by decide⟩

/-- C5 amended: the constructor stores the truncated remainder (sign of the
dividend) of the supplied id by 2 ^ bits. The stored value is congruent to
the supplied id modulo 2 ^ bits and lies in (-2 ^ bits, 2 ^ bits); it equals
the mathematical residue, and hence lies in [0, 2 ^ bits), whenever the
supplied id is non-negative. A non-numeric (NaN) id is stored as 0. -/
theorem normalize_ids_amended (o : OptionsIn) (c : Config)
    (hc : construct o = Except.ok c) :
    (o.processId = none → c.processId = 0) ∧
    (∀ x, o.processId = some x →
      c.processId = Int.tmod x (2 ^ c.processBits) ∧
      c.processId % 2 ^ c.processBits = x % 2 ^ c.processBits ∧
      (0 ≤ x → c.processId = x % 2 ^ c.processBits)) ∧
    -(2 ^ c.processBits) < c.processId ∧ c.processId < 2 ^ c.processBits ∧
    (o.workerId = none → c.workerId = 0) ∧
    (∀ x, o.workerId = some x →
      c.workerId = Int.tmod x (2 ^ c.workerBits) ∧
      c.workerId % 2 ^ c.workerBits = x % 2 ^ c.workerBits ∧
      (0 ≤ x → c.workerId = x % 2 ^ c.workerBits)) ∧
    -(2 ^ c.workerBits) < c.workerId ∧ c.workerId < 2 ^ c.workerBits := by
  have hwf := construct_ok_wellFormed hc
  obtain ⟨hp, hw, hpb, hwb⟩ := construct_ok_fields hc
  refine ⟨?_, ?_, hwf.pidGt, hwf.pidLt, ?_, ?_, hwf.widGt, hwf.widLt⟩
  · intro hnone
    rw [hp, hnone, normalizeId]
  · intro x hx
    have h1 : c.processId = Int.tmod x (2 ^ c.processBits) := by
      rw [hp, hx, normalizeId, bMod, hpb]
    refine ⟨h1, by rw [h1, tmod_emod], fun hx0 => ?_⟩
    rw [h1, Int.tmod_eq_emod hx0 (by positivity)]
  · intro hnone
    rw [hw, hnone, normalizeId]
  · intro x hx
    have h1 : c.workerId = Int.tmod x (2 ^ c.workerBits) := by
      rw [hw, hx, normalizeId, bMod, hwb]
    refine ⟨h1, by rw [h1, tmod_emod], fun hx0 => ?_⟩
    rw [h1, Int.tmod_eq_emod hx0 (by positivity)]

theorem normalize_ids_amended_witness :
    (oNeg.processId = none → cexCfg.processId = 0) ∧
    (∀ x, oNeg.processId = some x →
      cexCfg.processId = Int.tmod x (2 ^ cexCfg.processBits) ∧
      cexCfg.processId % 2 ^ cexCfg.processBits = x % 2 ^ cexCfg.processBits ∧
      (0 ≤ x → cexCfg.processId = x % 2 ^ cexCfg.processBits)) ∧
    -(2 ^ cexCfg.processBits) < cexCfg.processId ∧
    cexCfg.processId < 2 ^ cexCfg.processBits ∧
    (oNeg.workerId = none → cexCfg.workerId = 0) ∧
    (∀ x, oNeg.workerId = some x →
      cexCfg.workerId = Int.tmod x (2 ^ cexCfg.workerBits) ∧
      cexCfg.workerId % 2 ^ cexCfg.workerBits = x % 2 ^ cexCfg.workerBits ∧
      (0 ≤ x → cexCfg.workerId = x % 2 ^ cexCfg.workerBits)) ∧
    -(2 ^ cexCfg.workerBits) < cexCfg.workerId ∧
    cexCfg.workerId < 2 ^ cexCfg.workerBits := by
  exact normalize_ids_amended oNeg cexCfg rfl

end Catflake
